import Mathlib

/-
  Verification development for the cache repository.

  The embedding covers:
  * src/cache/serialize.py : jsonable_encoder (the ImportError fallback
    definition, which is the code of this repository) and json_dumps;
  * src/cache/hash.py      : get_hash (version byte ++ truncated md5);
  * src/cache/pickle_cache.py : PickleCache (init / get / set / clear) over an
    explicit flat-directory filesystem state;
  * src/cache/cache.py     : the cache decorator (one wrapped call).

  Python values are modelled by the inductive PyValue below.  The model covers
  the shapes the claims quantify over: None, bool, int, str, list, tuple, dict,
  and a generic object that only offers the two duck-typed fallback conversions
  dict(obj) and vars(obj).  Registry-only types (bytes, datetime, Decimal,
  enum, Path, ...) and the pydantic / dataclass / asdict branches are not given
  constructors; no claim quantifies over them.  Machine-level pickle is
  modelled as the identity on stored values, which is the only contract the
  code relies on.
-/

namespace CacheRepo

/-- Model of a Python runtime value handled by the serializer. -/
inductive PyValue : Type where
  | none : PyValue
  | bool (b : Bool) : PyValue
  | int (n : Int) : PyValue
  | str (s : String) : PyValue
  | list (xs : List PyValue) : PyValue
  | tuple (xs : List PyValue) : PyValue
  | dict (entries : List (PyValue × PyValue)) : PyValue
  | obj (dictConv : Except String (List (PyValue × PyValue)))
        (varsConv : Except String (List (PyValue × PyValue))) : PyValue

/-- Result values of jsonable_encoder: values json.dumps accepts. -/
inductive JValue : Type where
  | null : JValue
  | bool (b : Bool) : JValue
  | int (n : Int) : JValue
  | str (s : String) : JValue
  | arr (xs : List JValue) : JValue
  | obj (entries : List (JValue × JValue)) : JValue

/-- Python exceptions distinguished by the model. -/
inductive PyError : Type where
  | valueError (msgs : List String) : PyError
  | typeError (msg : String) : PyError
  | osError (msg : String) : PyError
deriving DecidableEq

/-- Membership test of the string s in the key set of the original mapping,
mirroring the Python expression key in allowed_keys (evaluated only when the
key is text, so only string equality is consulted). -/
def containsStr (allowed : List PyValue) (s : String) : Bool :=
  allowed.any fun k =>
    match k with
    | .str t => t == s
    | _ => false

/-- Model of the Python test key.startswith(p): the code point sequence of p
is a prefix of the code point sequence of the key. -/
def strStartsWith (s p : String) : Bool :=
  p.data.isPrefixOf s.data

/-- The key filter of the dict branch of jsonable_encoder, serialize.py lines
143 to 147.  The Python condition is
  (not isinstance(key, str)) or (not key.startswith("_sa")) and key in allowed_keys
which, by Python operator precedence, keeps a key iff it is not text, or it
does not start with the reserved prefix and is in the key set. -/
def dictKeyKept (allowed : List PyValue) : PyValue → Bool
  | .str s => !(strStartsWith s "_sa") && containsStr allowed s
  | _ => true

mutual

/-- Translation of jsonable_encoder, serialize.py lines 114 to 183 (the
ImportError fallback definition).  Branches for value shapes outside the
PyValue model (pydantic models, dataclasses, asdict, Enum, PurePath, the
ENCODERS_BY_TYPE registry) have no constructor and hence no equation.  The
final fallbacks try dict(obj), then vars(obj), and raise ValueError with the
list of both failures when both fail.  In Python the fallback branches call
jsonable_encoder(data) where data is always a dict, which lands in the dict
branch immediately; that branch body is inlined here so that the recursion is
structural (the lemma jsonable_encoder_obj_ok below records the equality with
the dict equation). -/
def jsonable_encoder : PyValue → Except PyError JValue
  | .none => .ok .null
  | .bool b => .ok (.bool b)
  | .int n => .ok (.int n)
  | .str s => .ok (.str s)
  | .dict entries => (encodeEntries (entries.map Prod.fst) entries).map JValue.obj
  | .list xs => (encodeItems xs).map JValue.arr
  | .tuple xs => (encodeItems xs).map JValue.arr
  | .obj dictConv varsConv =>
    match dictConv with
    | .ok data => (encodeEntries (data.map Prod.fst) data).map JValue.obj
    | .error e1 =>
      match varsConv with
      | .ok data => (encodeEntries (data.map Prod.fst) data).map JValue.obj
      | .error e2 => .error (.valueError [e1, e2])

/-- The element loop of the sequence branch of jsonable_encoder. -/
def encodeItems : List PyValue → Except PyError (List JValue)
  | [] => .ok []
  | x :: xs => do
    let jx ← jsonable_encoder x
    let jxs ← encodeItems xs
    return jx :: jxs

/-- The entry loop of the dict branch of jsonable_encoder: kept entries have
their key and value encoded in order; dropped entries are skipped.  The
encoded dict is modelled as the list of encoded pairs in insertion order. -/
def encodeEntries (allowed : List PyValue) :
    List (PyValue × PyValue) → Except PyError (List (JValue × JValue))
  | [] => .ok []
  | (k, v) :: rest =>
    if dictKeyKept allowed k then do
      let jk ← jsonable_encoder k
      let jv ← jsonable_encoder v
      let jrest ← encodeEntries allowed rest
      return (jk, jv) :: jrest
    else
      encodeEntries allowed rest

end

/-- The fallback branches of jsonable_encoder agree with re-entering the
encoder at the converted dict, as the Python code does literally. -/
theorem jsonable_encoder_obj_ok (data : List (PyValue × PyValue))
    (vc : Except String (List (PyValue × PyValue))) :
    jsonable_encoder (.obj (.ok data) vc) = jsonable_encoder (.dict data) := rfl

/-! ### json.dumps

Model of the call in serialize.py lines 186 to 193:
json.dumps(x, ensure_ascii=False, sort_keys=True, indent=None,
separators=(",", ":")).  Mapping entries are sorted by key with the Python
string order (lexicographic on code points); separators are "," and ":" with
no whitespace; non-ASCII characters are kept literal and only the backslash,
the double quote and control characters are escaped.  Keys are modelled for
text keys only: a non-text key makes the model raise a TypeError (the claims
only exercise canonical mappings, whose keys are text). -/

/-- Lexicographic comparison of code point sequences: the order Python uses
on strings. -/
def charListLt : List Char → List Char → Bool
  | [], [] => false
  | [], _ :: _ => true
  | _ :: _, [] => false
  | c :: cs, d :: ds =>
    if c.toNat < d.toNat then true
    else if d.toNat < c.toNat then false
    else charListLt cs ds

/-- Key order on already-dumped entries: a comes no later than b when the key
of b is not strictly below the key of a. -/
def pairLe (a b : String × String) : Bool :=
  !(charListLt b.1.data a.1.data)

/-- Stable insertion of one entry into a key-sorted list of entries. -/
def orderedInsertPair (a : String × String) :
    List (String × String) → List (String × String)
  | [] => [a]
  | b :: t => if pairLe a b then a :: b :: t else b :: orderedInsertPair a t

/-- Stable sort of entries by key: the model of sorted(d.items()). -/
def sortPairs : List (String × String) → List (String × String)
  | [] => []
  | a :: t => orderedInsertPair a (sortPairs t)

/-- One hexadecimal digit, lower case. -/
def hexDigitChar (n : Nat) : Char :=
  if n < 10 then Char.ofNat (48 + n) else Char.ofNat (87 + n)

/-- The escape json.dumps applies inside a string literal when
ensure_ascii=False: backslash, double quote and control characters are
escaped, every other character is kept literal. -/
def jsonEscapeChar (c : Char) : String :=
  if c = '\\' then "\\\\"
  else if c = '\"' then "\\\""
  else if c = '\n' then "\\n"
  else if c = '\r' then "\\r"
  else if c = '\t' then "\\t"
  else if c = '\x08' then "\\b"
  else if c = '\x0c' then "\\f"
  else if c.toNat < 32 then
    "\\u00" ++ String.mk [hexDigitChar (c.toNat / 16), hexDigitChar (c.toNat % 16)]
  else String.singleton c

/-- A json string literal: quotes around the escaped characters. -/
def jsonQuote (s : String) : String :=
  "\"" ++ String.join (s.data.map jsonEscapeChar) ++ "\""

mutual

/-- Serialization of an encoded value to json text with the options used in
json_dumps.  Integers print in decimal, booleans as true and false, None as
null, arrays with "," separators, mappings with entries sorted by key and
"," and ":" separators. -/
def dumpJson : JValue → Except PyError String
  | .null => .ok "null"
  | .bool b => .ok (if b then "true" else "false")
  | .int n => .ok (toString n)
  | .str s => .ok (jsonQuote s)
  | .arr xs =>
    (dumpItems xs).map fun parts => "[" ++ String.intercalate "," parts ++ "]"
  | .obj es =>
    (dumpPairs es).map fun pairs =>
      "\x7b" ++
        String.intercalate ","
          ((sortPairs pairs).map fun p => jsonQuote p.1 ++ ":" ++ p.2) ++
      "\x7d"

/-- Array elements dumped in order. -/
def dumpItems : List JValue → Except PyError (List String)
  | [] => .ok []
  | x :: xs => do
    let dx ← dumpJson x
    let dxs ← dumpItems xs
    return dx :: dxs

/-- Mapping entries paired as key text and dumped value text; a non-text key
raises TypeError as json.dumps does for unhandled key types. -/
def dumpPairs : List (JValue × JValue) → Except PyError (List (String × String))
  | [] => .ok []
  | (k, v) :: rest =>
    match k with
    | .str s => do
      let dv ← dumpJson v
      let drest ← dumpPairs rest
      return (s, dv) :: drest
    | _ => .error (.typeError "keys must be str")

end

/-- json_dumps, serialize.py lines 186 to 193: encode then dump. -/
def json_dumps (thing : PyValue) : Except PyError String :=
  (jsonable_encoder thing).bind dumpJson

/-! ### get_hash

Model of src/cache/hash.py: the UTF-8 bytes of the json text are digested
with MD5 (RFC 1321, implemented below over natural numbers modulo 2 ^ 32),
the digest loses its last byte, and a single version byte 0 is prepended.
Bytes are natural numbers below 256. -/

/-- UTF-8 encoding of one code point. -/
def utf8EncodeChar (c : Char) : List Nat :=
  let n := c.toNat
  if n < 128 then [n]
  else if n < 2048 then
    [192 + n / 64, 128 + n % 64]
  else if n < 65536 then
    [224 + n / 4096, 128 + (n / 64) % 64, 128 + n % 64]
  else
    [240 + n / 262144, 128 + (n / 4096) % 64, 128 + (n / 64) % 64, 128 + n % 64]

/-- UTF-8 bytes of a string. -/
def utf8Bytes (s : String) : List Nat :=
  (s.data.map utf8EncodeChar).flatten

/-- Two to the thirty-second power, the word modulus of MD5. -/
def M32 : Nat := 4294967296

/-- Left rotation of a 32 bit word. -/
def rotl32 (x s : Nat) : Nat :=
  ((x <<< s) % M32) ||| (x >>> (32 - s))

/-- Bitwise complement of a 32 bit word. -/
def not32 (x : Nat) : Nat := (M32 - 1) - x

/-- The sine-derived constant table of RFC 1321. -/
def md5K : List Nat :=
  [0xd76aa478, 0xe8c7b756, 0x242070db, 0xc1bdceee,
   0xf57c0faf, 0x4787c62a, 0xa8304613, 0xfd469501,
   0x698098d8, 0x8b44f7af, 0xffff5bb1, 0x895cd7be,
   0x6b901122, 0xfd987193, 0xa679438e, 0x49b40821,
   0xf61e2562, 0xc040b340, 0x265e5a51, 0xe9b6c7aa,
   0xd62f105d, 0x02441453, 0xd8a1e681, 0xe7d3fbc8,
   0x21e1cde6, 0xc33707d6, 0xf4d50d87, 0x455a14ed,
   0xa9e3e905, 0xfcefa3f8, 0x676f02d9, 0x8d2a4c8a,
   0xfffa3942, 0x8771f681, 0x6d9d6122, 0xfde5380c,
   0xa4beea44, 0x4bdecfa9, 0xf6bb4b60, 0xbebfbc70,
   0x289b7ec6, 0xeaa127fa, 0xd4ef3085, 0x04881d05,
   0xd9d4d039, 0xe6db99e5, 0x1fa27cf8, 0xc4ac5665,
   0xf4292244, 0x432aff97, 0xab9423a7, 0xfc93a039,
   0x655b59c3, 0x8f0ccc92, 0xffeff47d, 0x85845dd1,
   0x6fa87e4f, 0xfe2ce6e0, 0xa3014314, 0x4e0811a1,
   0xf7537e82, 0xbd3af235, 0x2ad7d2bb, 0xeb86d391]

/-- The per-round shift table of RFC 1321. -/
def md5S : List Nat :=
  [7, 12, 17, 22, 7, 12, 17, 22, 7, 12, 17, 22, 7, 12, 17, 22,
   5, 9, 14, 20, 5, 9, 14, 20, 5, 9, 14, 20, 5, 9, 14, 20,
   4, 11, 16, 23, 4, 11, 16, 23, 4, 11, 16, 23, 4, 11, 16, 23,
   6, 10, 15, 21, 6, 10, 15, 21, 6, 10, 15, 21, 6, 10, 15, 21]

/-- The four word state of the MD5 compression function. -/
structure MD5State : Type where
  a : Nat
  b : Nat
  c : Nat
  d : Nat

/-- The nonlinear function of round i. -/
def md5F (i b c d : Nat) : Nat :=
  if i < 16 then (b &&& c) ||| (not32 b &&& d)
  else if i < 32 then (d &&& b) ||| (not32 d &&& c)
  else if i < 48 then b ^^^ c ^^^ d
  else c ^^^ (b ||| not32 d)

/-- The message word index of round i. -/
def md5G (i : Nat) : Nat :=
  if i < 16 then i
  else if i < 32 then (5 * i + 1) % 16
  else if i < 48 then (3 * i + 5) % 16
  else (7 * i) % 16

/-- One MD5 round on the state, for round index i with message words w. -/
def md5Step (w : List Nat) (st : MD5State) (i : Nat) : MD5State :=
  let f := (md5F i st.b st.c st.d + st.a + md5K.getD i 0 + w.getD (md5G i) 0) % M32
  ⟨st.d, (st.b + rotl32 f (md5S.getD i 0)) % M32, st.b, st.c⟩

/-- n little-endian bytes of a number. -/
def leBytes : Nat → Nat → List Nat
  | 0, _ => []
  | n + 1, v => (v % 256) :: leBytes n (v / 256)

/-- A padded byte stream as little-endian 32 bit words. -/
def bytesToWords : List Nat → List Nat
  | b0 :: b1 :: b2 :: b3 :: rest =>
    (b0 + b1 * 256 + b2 * 65536 + b3 * 16777216) :: bytesToWords rest
  | _ => []

/-- MD5 padding: one 0x80 byte, zeros to 56 modulo 64, then the bit length
in 8 little-endian bytes. -/
def md5Pad (msg : List Nat) : List Nat :=
  let len := msg.length
  let r := (len + 1) % 64
  msg ++ 128 :: List.replicate ((120 - r) % 64) 0 ++
    leBytes 8 ((8 * len) % 18446744073709551616)

/-- The MD5 compression function for one 16 word chunk. -/
def md5Chunk (st : MD5State) (w : List Nat) : MD5State :=
  let e := (List.range 64).foldl (md5Step w) st
  ⟨(st.a + e.a) % M32, (st.b + e.b) % M32, (st.c + e.c) % M32, (st.d + e.d) % M32⟩

/-- The word stream consumed 16 words (one chunk) at a time. -/
def md5Chunks (st : MD5State) : List Nat → MD5State
  | w0 :: w1 :: w2 :: w3 :: w4 :: w5 :: w6 :: w7 ::
    w8 :: w9 :: w10 :: w11 :: w12 :: w13 :: w14 :: w15 :: rest =>
    md5Chunks
      (md5Chunk st
        [w0, w1, w2, w3, w4, w5, w6, w7, w8, w9, w10, w11, w12, w13, w14, w15])
      rest
  | _ => st

/-- The 16 byte MD5 digest of a byte sequence. -/
def md5 (msg : List Nat) : List Nat :=
  let st := md5Chunks ⟨0x67452301, 0xefcdab89, 0x98badcfe, 0x10325476⟩
    (bytesToWords (md5Pad msg))
  leBytes 4 st.a ++ leBytes 4 st.b ++ leBytes 4 st.c ++ leBytes 4 st.d

/-- The format version prefixed to every digest, hash.py line 8. -/
def _VERSION : Nat := 0

/-- get_hash, hash.py lines 11 to 14: version byte, then the MD5 digest of
the UTF-8 encoded json text with its last byte dropped.  A serialization
failure propagates. -/
def get_hash (thing : PyValue) : Except PyError (List Nat) :=
  (json_dumps thing).map fun s => _VERSION :: (md5 (utf8Bytes s)).dropLast

/-- One byte as two lower case hex digits. -/
def byteHex (b : Nat) : String :=
  String.mk [hexDigitChar (b / 16), hexDigitChar (b % 16)]

/-- bytes.hex() on a byte sequence. -/
def bytesHex (bs : List Nat) : String :=
  String.join (bs.map byteHex)

/-- get_hash(key).hex(), the file-name stem used by PickleCache. -/
def hashHex (key : PyValue) : Except PyError String :=
  (get_hash key).map bytesHex

instance {ε α : Type} [DecidableEq ε] [DecidableEq α] : DecidableEq (Except ε α) :=
  fun x y =>
    match x, y with
    | .ok a, .ok b =>
      if h : a = b then isTrue (by rw [h]) else isFalse (by simp [h])
    | .error a, .error b =>
      if h : a = b then isTrue (by rw [h]) else isFalse (by simp [h])
    | .ok _, .error _ => isFalse (by simp)
    | .error _, .ok _ => isFalse (by simp)

/-! ### PickleCache, src/cache/pickle_cache.py

The store writes flat files directly under its base directory and creates no
subdirectory structure of its own, so the filesystem state is modelled as a
flag saying whether the base directory exists plus the association list of
files inside it (full path to stored value).  pickle round-trips the stored
values, so a file content is modelled as the PyValue itself.  os.walk over
this flat layout yields a single triple (basedir, [], filenames) when the
directory exists and nothing otherwise; since the code removes a directory
whenever the walk reports no subdirectories, clear attempts os.rmdir on the
base directory even when files remain in it, which raises OSError exactly
when the file list is non-empty. -/

/-- The filesystem state seen by one PickleCache base directory. -/
structure FS : Type where
  basedirExists : Bool
  files : List (String × PyValue)

/-- The state of a PickleCache instance: its base directory and the set of
paths it has touched, pickle_cache.py lines 16 to 18.  The Python set is
modelled as a duplicate-free list in insertion order. -/
structure PickleCache : Type where
  basedir : String
  cachedObjectPaths : List String

/-- Addition to the known-path set: a no-op when the path is present. -/
def insertPath (ps : List String) (p : String) : List String :=
  if p ∈ ps then ps else ps ++ [p]

/-- File lookup inside the base directory. -/
def FS.lookupFile (fs : FS) (path : String) : Option PyValue :=
  fs.files.lookup path

/-- Overwriting write into the association list of files. -/
def updateAssoc : List (String × PyValue) → String → PyValue → List (String × PyValue)
  | [], p, v => [(p, v)]
  | (q, w) :: t, p, v =>
    if q = p then (p, v) :: t else (q, w) :: updateAssoc t p v

/-- Removal of one file from the association list. -/
def removeFile : List (String × PyValue) → String → List (String × PyValue)
  | [], _ => []
  | (q, w) :: t, p =>
    if q = p then t else (q, w) :: removeFile t p

/-- init, pickle_cache.py lines 20 to 21: os.makedirs(basedir, exist_ok=True). -/
def PickleCache.init (_c : PickleCache) (fs : FS) : FS :=
  { fs with basedirExists := true }

/-- The file path for a hash stem: os.path.join(basedir, hash + ".pickle"). -/
def PickleCache.cacheFilePath (c : PickleCache) (h : String) : String :=
  c.basedir ++ "/" ++ h ++ ".pickle"

/-- get, pickle_cache.py lines 23 to 28: when the cache file exists its
pickled content is returned and the path is recorded as known; otherwise the
Python function returns None, modelled by the result PyValue.none. -/
def PickleCache.get (c : PickleCache) (fs : FS) (key : PyValue) :
    Except PyError (PyValue × PickleCache × FS) :=
  (hashHex key).map fun h =>
    let cache_file := c.cacheFilePath h
    match fs.lookupFile cache_file with
    | some data =>
      (data,
        { c with cachedObjectPaths := insertPath c.cachedObjectPaths cache_file },
        fs)
    | none => (.none, c, fs)

/-- set, pickle_cache.py lines 30 to 34: pickle the value into the cache
file and record the path as known.  Opening the file for writing fails with
OSError when the base directory does not exist. -/
def PickleCache.set (c : PickleCache) (fs : FS) (key : PyValue) (value : PyValue) :
    Except PyError (String × PickleCache × FS) :=
  (hashHex key).bind fun h =>
    let cache_file := c.cacheFilePath h
    if fs.basedirExists then
      .ok (cache_file,
        { c with cachedObjectPaths := insertPath c.cachedObjectPaths cache_file },
        { fs with files := updateAssoc fs.files cache_file value })
    else
      .error (.osError "No such file or directory")

/-- The unlink loop of clear, pickle_cache.py lines 43 to 44: every known
path is deleted; Path.unlink raises when the file is missing. -/
def unlinkAll (fs : FS) : List String → Except PyError FS
  | [] => .ok fs
  | p :: rest =>
    match fs.lookupFile p with
    | some _ => unlinkAll { fs with files := removeFile fs.files p } rest
    | none => .error (.osError "No such file or directory")

/-- clear, pickle_cache.py lines 36 to 50: count the known paths, unlink
them, reset the known set, then walk the base directory bottom-up and call
os.rmdir on every directory whose subdirectory list is empty.  In the flat
layout the walk visits only the base directory, whose subdirectory list is
always empty, so os.rmdir runs whenever the directory exists: it removes the
directory when no files remain and raises OSError otherwise. -/
def PickleCache.clear (c : PickleCache) (fs : FS) :
    Except PyError (Nat × PickleCache × FS) :=
  let cached_object_count := c.cachedObjectPaths.length
  (unlinkAll fs c.cachedObjectPaths).bind fun fs2 =>
    let c2 : PickleCache := { c with cachedObjectPaths := [] }
    if fs2.basedirExists then
      if fs2.files.isEmpty then
        .ok (cached_object_count, c2, { fs2 with basedirExists := false })
      else
        .error (.osError "Directory not empty")
    else
      .ok (cached_object_count, c2, fs2)

/-- The value channel of get as the Python caller sees it: a single nullable
return, where PyValue.none stands both for a missing entry and for a stored
None. -/
def getValue (c : PickleCache) (fs : FS) (key : PyValue) : Except PyError PyValue :=
  (c.get fs key).map fun r => r.1

/-- A sequence of set calls, threading the store and filesystem state. -/
def setAll (c : PickleCache) (fs : FS) :
    List (PyValue × PyValue) → Except PyError (PickleCache × FS)
  | [] => .ok (c, fs)
  | (k, v) :: rest => (c.set fs k v).bind fun r => setAll r.2.1 r.2.2 rest

/-! ### The cache decorator, src/cache/cache.py lines 35 to 54

One call of the wrapped function with a fixed cache object: init the store,
look the key up, return the cached value when it is not None, otherwise
invoke the wrapped callable, store its result and return it.  Python
exceptions abort the call part-way but leave the mutations already made, so
the outcome type carries the store and filesystem state also on the error
path, together with the flag saying whether the wrapped callable ran. -/

/-- The Python test value is None. -/
def PyValue.isNone : PyValue → Bool
  | .none => true
  | _ => false

/-- Result of one call of the wrapped function. -/
inductive CallOutcome : Type where
  | success (result : PyValue) (c : PickleCache) (fs : FS) (invoked : Bool)
  | pyError (e : PyError) (c : PickleCache) (fs : FS) (invoked : Bool)

/-- Did this call invoke the wrapped callable? -/
def CallOutcome.invokedF : CallOutcome → Bool
  | .success _ _ _ i => i
  | .pyError _ _ _ i => i

/-- The store state after the call. -/
def CallOutcome.cacheState : CallOutcome → PickleCache
  | .success _ c _ _ => c
  | .pyError _ c _ _ => c

/-- The filesystem state after the call. -/
def CallOutcome.fsState : CallOutcome → FS
  | .success _ _ fs _ => fs
  | .pyError _ _ fs _ => fs

/-- One invocation of the wrapper produced by the cache decorator,
cache.py lines 37 to 52, with the cache object given directly (the
cache_cls=None path) and the key (args, kwargs) abstracted as one PyValue
consumed by both the store and the wrapped callable. -/
def cacheWrapperCall (c0 : PickleCache) (fs0 : FS)
    (f : PyValue → Except PyError PyValue) (key : PyValue) : CallOutcome :=
  let fs1 := c0.init fs0
  match c0.get fs1 key with
  | .error e => .pyError e c0 fs1 false
  | .ok (cached, c1, fs2) =>
    if !cached.isNone then
      .success cached c1 fs2 false
    else
      match f key with
      | .error e => .pyError e c1 fs2 true
      | .ok result =>
        match c1.set fs2 key result with
        | .error e => .pyError e c1 fs2 true
        | .ok (_, c2, fs3) => .success result c2 fs3 true

/-! ### Operation traces, for the clear-count accounting -/

/-- One store operation issued by a caller. -/
inductive CacheOp : Type where
  | get (key : PyValue)
  | set (key : PyValue) (value : PyValue)

/-- Execution of one operation. -/
def execOp (c : PickleCache) (fs : FS) : CacheOp → Except PyError (PickleCache × FS)
  | .get k => (c.get fs k).map fun r => r.2
  | .set k v => (c.set fs k v).map fun r => r.2

/-- Execution of a trace of operations. -/
def runOps (c : PickleCache) (fs : FS) : List CacheOp → Except PyError (PickleCache × FS)
  | [] => .ok (c, fs)
  | op :: rest => (execOp c fs op).bind fun r => runOps r.1 r.2 rest

/-! ### Combinator forms of the element loops

The loops of the encoder and of the json dumper are each equal to a mapping
combinator over Except applied pointwise; the equalities are proved below and
let permutation reasoning happen in one place. -/

/-- Pointwise effectful map over Except, stopping at the first failure. -/
def exceptMapList {α β : Type} (f : α → Except PyError β) : List α → Except PyError (List β)
  | [] => .ok []
  | x :: t => (f x).bind fun y => (exceptMapList f t).map fun ys => y :: ys

/-- The per-entry body of the dict loop of jsonable_encoder: encode the key,
then the value. -/
def encPair (p : PyValue × PyValue) : Except PyError (JValue × JValue) :=
  (jsonable_encoder p.1).bind fun jk =>
    (jsonable_encoder p.2).map fun jv => (jk, jv)

/-- The per-entry body of dumpPairs: a text key paired with its dumped
value. -/
def dumpPair (p : JValue × JValue) : Except PyError (String × String) :=
  match p.1 with
  | .str s => (dumpJson p.2).map fun dv => (s, dv)
  | _ => .error (.typeError "keys must be str")

/-- The encoded form of a text key (used only under the hypothesis that the
key is text). -/
def jKey : PyValue → JValue
  | .str s => .str s
  | _ => .null

/-- The string of a text json key (used only under the hypothesis that the
key is text). -/
def sKey : JValue → String
  | .str s => s
  | _ => ""

/-! ## Helper lemmas -/

theorem insertPath_of_mem {ps : List String} {p : String} (h : p ∈ ps) :
    insertPath ps p = ps := by
  simp [insertPath, h]

theorem insertPath_of_not_mem {ps : List String} {p : String} (h : p ∉ ps) :
    insertPath ps p = ps ++ [p] := by
  simp [insertPath, h]

theorem mem_insertPath (ps : List String) (p : String) : p ∈ insertPath ps p := by
  by_cases h : p ∈ ps
  · simpa [insertPath_of_mem h]
  · simp [insertPath_of_not_mem h]

theorem lookup_updateAssoc_self (l : List (String × PyValue)) (p : String) (v : PyValue) :
    (updateAssoc l p v).lookup p = some v := by
  induction l with
  | nil => simp [updateAssoc, List.lookup]
  | cons hd t ih =>
    obtain ⟨q, w⟩ := hd
    by_cases h : q = p
    · simp [updateAssoc, h, List.lookup]
    · simp only [updateAssoc, if_neg h, List.lookup]
      have : (p == q) = false := by
        simp [beq_eq_false_iff_ne]
        exact fun hc => h hc.symm
      simp [this, ih]

theorem updateAssoc_of_not_mem {l : List (String × PyValue)} {p : String}
    (h : p ∉ l.map Prod.fst) (v : PyValue) :
    updateAssoc l p v = l ++ [(p, v)] := by
  induction l with
  | nil => simp [updateAssoc]
  | cons hd t ih =>
    obtain ⟨q, w⟩ := hd
    simp only [List.map_cons, List.mem_cons] at h
    push_neg at h
    simp [updateAssoc, Ne.symm h.1, ih h.2]

/-- A miss of PickleCache.get: the file is absent, the call returns the
Python None and changes neither the store nor the filesystem. -/
theorem get_of_miss (c : PickleCache) (fs : FS) (k : PyValue) (h : String)
    (hh : hashHex k = .ok h)
    (habs : fs.lookupFile (c.cacheFilePath h) = Option.none) :
    c.get fs k = .ok (.none, c, fs) := by
  simp [PickleCache.get, hh, Except.map, habs]

/-- A hit of PickleCache.get: the file content is returned and the path is
recorded as known. -/
theorem get_of_hit (c : PickleCache) (fs : FS) (k : PyValue) (h : String) (v : PyValue)
    (hh : hashHex k = .ok h)
    (hfile : fs.lookupFile (c.cacheFilePath h) = some v) :
    c.get fs k = .ok (v,
      { c with cachedObjectPaths := insertPath c.cachedObjectPaths (c.cacheFilePath h) },
      fs) := by
  simp [PickleCache.get, hh, Except.map, hfile]

/-- PickleCache.set on an existing base directory writes the file and
records the path. -/
theorem set_of_ok (c : PickleCache) (fs : FS) (k : PyValue) (v : PyValue) (h : String)
    (hh : hashHex k = .ok h)
    (hbd : fs.basedirExists = true) :
    c.set fs k v = .ok (c.cacheFilePath h,
      { c with cachedObjectPaths := insertPath c.cachedObjectPaths (c.cacheFilePath h) },
      { fs with files := updateAssoc fs.files (c.cacheFilePath h) v }) := by
  simp [PickleCache.set, hh, Except.bind, hbd]

theorem containsStr_of_mem {allowed : List PyValue} {s : String}
    (h : PyValue.str s ∈ allowed) :
    containsStr allowed s = true := by
  simp only [containsStr, List.any_eq_true]
  exact ⟨.str s, h, by simp⟩

theorem init_of_exists {c : PickleCache} {fs : FS} (h : fs.basedirExists = true) :
    c.init fs = fs := by
  cases fs
  simp_all [PickleCache.init]

/-- A wrapper call that misses and whose callable returns v: the callable is
invoked, the result is stored under the key file and returned. -/
theorem wrapperCall_miss_ok (c : PickleCache) (fs : FS)
    (f : PyValue → Except PyError PyValue) (a v : PyValue) (h : String)
    (hh : hashHex a = .ok h)
    (habs : fs.lookupFile (c.cacheFilePath h) = Option.none)
    (hf : f a = .ok v) :
    cacheWrapperCall c fs f a = .success v
      { c with cachedObjectPaths := insertPath c.cachedObjectPaths (c.cacheFilePath h) }
      ⟨true, updateAssoc fs.files (c.cacheFilePath h) v⟩ true := by
  have habs' : FS.lookupFile ⟨true, fs.files⟩ (c.cacheFilePath h) = Option.none := habs
  rw [cacheWrapperCall]
  have hinit : c.init fs = (⟨true, fs.files⟩ : FS) := rfl
  rw [hinit, get_of_miss c ⟨true, fs.files⟩ a h hh habs']
  simp only [PyValue.isNone, Bool.not_true, Bool.false_eq_true, if_false, hf]
  rw [set_of_ok c ⟨true, fs.files⟩ a v h hh rfl]

/-- A wrapper call that hits a stored non-None value whose path is already
known: the stored value is returned, nothing is invoked, nothing changes. -/
theorem wrapperCall_hit (c : PickleCache) (fs : FS)
    (g : PyValue → Except PyError PyValue) (a v : PyValue) (h : String)
    (hh : hashHex a = .ok h)
    (hbd : fs.basedirExists = true)
    (hfile : fs.lookupFile (c.cacheFilePath h) = some v)
    (hv : v.isNone = false)
    (hmem : c.cacheFilePath h ∈ c.cachedObjectPaths) :
    cacheWrapperCall c fs g a = .success v c fs false := by
  rw [cacheWrapperCall, init_of_exists hbd, get_of_hit c fs a h v hh hfile,
    insertPath_of_mem hmem]
  simp [hv]

set_option maxRecDepth 8000000

/-! ## The claims -/

/-- C2, counterexample to the claim as stated: the claim says the filter is
a no-op for ordinary mappings, every key of the mapping appearing in the
canonical output even when it is a text key starting with the reserved
prefix; but the code drops the text key "_sax" of this one-entry mapping and
produces the empty canonical mapping. -/
theorem C2_counterexample :
    jsonable_encoder (.dict [(.str "_sax", .int 1)]) = .ok (.obj []) := rfl

/-- C2, amended: a key of the mapping is kept if and only if it is not a
text key starting with the reserved prefix "_sa".  By Python operator
precedence the membership conjunct of the source condition sits on the keep
side and is vacuously true for keys of the mapping, so the filter drops
exactly the text keys starting with "_sa" rather than being a no-op. -/
theorem C2_thm (entries : List (PyValue × PyValue)) (k : PyValue)
    (hk : k ∈ entries.map Prod.fst) :
    dictKeyKept (entries.map Prod.fst) k = true ↔
      ¬ ∃ s, k = PyValue.str s ∧ strStartsWith s "_sa" = true := by
  cases k with
  | str s =>
    rw [dictKeyKept, containsStr_of_mem hk]
    simp
  | none => simp [dictKeyKept]
  | bool b => simp [dictKeyKept]
  | int n => simp [dictKeyKept]
  | list xs => simp [dictKeyKept]
  | tuple xs => simp [dictKeyKept]
  | dict es => simp [dictKeyKept]
  | obj dc vc => simp [dictKeyKept]

/-- C2, witness: the text key "_sax" of a mapping holding it is dropped by
the filter, while the ordinary text key "a" is kept. -/
theorem C2_witness :
    (PyValue.str "_sax" ∈
      ([(.str "_sax", .int 1), (.str "a", .int 2)] :
        List (PyValue × PyValue)).map Prod.fst) ∧
    dictKeyKept (([(.str "_sax", .int 1), (.str "a", .int 2)] :
        List (PyValue × PyValue)).map Prod.fst) (.str "_sax") = false := by
  have hmem : PyValue.str "_sax" ∈
      ([(.str "_sax", .int 1), (.str "a", .int 2)] :
        List (PyValue × PyValue)).map Prod.fst := by simp
  refine ⟨hmem, ?_⟩
  have h2 := (C2_thm [(.str "_sax", .int 1), (.str "a", .int 2)] (.str "_sax") hmem)
  by_contra hne
  have : dictKeyKept (([(.str "_sax", .int 1), (.str "a", .int 2)] :
      List (PyValue × PyValue)).map Prod.fst) (.str "_sax") = true := by
    revert hne
    cases dictKeyKept (([(.str "_sax", .int 1), (.str "a", .int 2)] :
        List (PyValue × PyValue)).map Prod.fst) (.str "_sax") <;> simp
  exact (h2.mp this) ⟨"_sax", rfl, rfl⟩

/-- C8: a value outside every registry rule whose mapping-view conversion
fails with e1 and whose attribute-view conversion fails with e2 makes the
encoder raise the serialization error carrying both failures, in order. -/
theorem C8_thm (e1 e2 : String) :
    jsonable_encoder (.obj (.error e1) (.error e2)) =
      .error (.valueError [e1, e2]) := rfl

/-- C10: a get whose cache file does not exist reports absent without
raising and returns the store and the filesystem unchanged: no file or
directory is created or removed and the known-path set stays the same. -/
theorem C10_thm (c : PickleCache) (fs : FS) (k : PyValue) (h : String)
    (hh : hashHex k = .ok h)
    (habs : fs.lookupFile (c.cacheFilePath h) = Option.none) :
    c.get fs k = .ok (.none, c, fs) :=
  get_of_miss c fs k h hh habs

/-- C10, witness: a concrete miss on an empty base directory. -/
theorem C10_witness :
    hashHex PyValue.none = .ok "0037a6259cc0c1dae299a7866489dff0" ∧
    PickleCache.get ⟨"bd", []⟩ ⟨true, []⟩ PyValue.none =
      .ok (PyValue.none, ⟨"bd", []⟩, ⟨true, []⟩) :=
  ⟨by decide,
   C10_thm ⟨"bd", []⟩ ⟨true, []⟩ PyValue.none "0037a6259cc0c1dae299a7866489dff0"
     (by decide) rfl⟩

/-- C6, counterexample to the claim as stated: the claim says the result of
get when nothing was stored is distinguishable from the result of get after
a null was stored; but on this concrete store the two results are the same
value: storing None under a key and reading it back returns exactly what
get returns for the key with no entry at all. -/
theorem C6_counterexample :
    (PickleCache.set ⟨"bd", []⟩ ⟨true, []⟩ PyValue.none PyValue.none).bind
        (fun r => getValue r.2.1 r.2.2 PyValue.none) =
      getValue ⟨"bd", []⟩ ⟨true, []⟩ PyValue.none := rfl

/-- C6, amended: the store signals absence with the same Python None a
stored null produces, not with an explicit present/absent signal: a get
whose file is missing returns None, and a get after set(key, None) also
returns None, so the two cases are indistinguishable to the caller. -/
theorem C6_thm (c : PickleCache) (fs : FS) (k : PyValue) (h : String)
    (hh : hashHex k = .ok h)
    (hbd : fs.basedirExists = true)
    (habs : fs.lookupFile (c.cacheFilePath h) = Option.none) :
    getValue c fs k = .ok PyValue.none ∧
    ∀ r, c.set fs k PyValue.none = .ok r →
      getValue r.2.1 r.2.2 k = .ok PyValue.none := by
  constructor
  · rw [getValue, get_of_miss c fs k h hh habs]
    rfl
  · intro r hr
    rw [set_of_ok c fs k PyValue.none h hh hbd] at hr
    cases hr
    have hfile :
        ({ fs with files := updateAssoc fs.files (c.cacheFilePath h) PyValue.none } :
            FS).lookupFile
          (({ c with cachedObjectPaths :=
                insertPath c.cachedObjectPaths (c.cacheFilePath h) } :
              PickleCache).cacheFilePath h) = some PyValue.none := by
      show (updateAssoc fs.files (c.cacheFilePath h) PyValue.none).lookup
        (c.cacheFilePath h) = some PyValue.none
      exact lookup_updateAssoc_self fs.files _ _
    rw [getValue, get_of_hit _ _ k h PyValue.none hh hfile]
    rfl

/-- C6, witness: the general statement at the concrete store of the
counterexample. -/
theorem C6_witness :
    hashHex PyValue.none = .ok "0037a6259cc0c1dae299a7866489dff0" ∧
    getValue ⟨"bd", []⟩ ⟨true, []⟩ PyValue.none = .ok PyValue.none :=
  ⟨by decide,
   (C6_thm ⟨"bd", []⟩ ⟨true, []⟩ PyValue.none "0037a6259cc0c1dae299a7866489dff0"
     (by decide) rfl rfl).1⟩

/-- C7: when the wrapped callable raises on a miss, the wrapper propagates
exactly that exception, the store files are unchanged (set is never
reached), and a subsequent get for the same arguments still reports
absent. -/
theorem C7_thm (c : PickleCache) (fs : FS)
    (f : PyValue → Except PyError PyValue) (a : PyValue) (h : String) (e : PyError)
    (hh : hashHex a = .ok h)
    (habs : fs.lookupFile (c.cacheFilePath h) = Option.none)
    (hf : f a = .error e) :
    cacheWrapperCall c fs f a = .pyError e c ⟨true, fs.files⟩ true ∧
    getValue c ⟨true, fs.files⟩ a = .ok PyValue.none := by
  have habs' : FS.lookupFile ⟨true, fs.files⟩ (c.cacheFilePath h) = Option.none := habs
  constructor
  · rw [cacheWrapperCall]
    have hinit : c.init fs = (⟨true, fs.files⟩ : FS) := rfl
    rw [hinit, get_of_miss c ⟨true, fs.files⟩ a h hh habs']
    simp [PyValue.isNone, hf]
  · rw [getValue, get_of_miss c ⟨true, fs.files⟩ a h hh habs']
    rfl

/-- C7, witness: a wrapped callable that always raises, called on a fresh
store. -/
theorem C7_witness :
    cacheWrapperCall ⟨"bd", []⟩ ⟨true, []⟩ (fun _ => .error (.typeError "boom"))
        PyValue.none =
      .pyError (.typeError "boom") ⟨"bd", []⟩ ⟨true, []⟩ true :=
  (C7_thm ⟨"bd", []⟩ ⟨true, []⟩ (fun _ => .error (.typeError "boom")) PyValue.none
    "0037a6259cc0c1dae299a7866489dff0" (.typeError "boom") (by decide) rfl rfl).1

/-- C3, counterexample to the claim as stated: the claim quantifies over
every wrapped callable, but a callable returning None is invoked again by
the second call with identical arguments, because the stored None is
indistinguishable from a miss. -/
theorem C3_counterexample :
    (let o1 := cacheWrapperCall ⟨"bd", []⟩ ⟨true, []⟩ (fun _ => .ok .none) .none
     (cacheWrapperCall o1.cacheState o1.fsState (fun _ => .ok .none) .none).invokedF)
      = true := rfl

/-- C3, amended: for a wrapped callable whose result for the given
arguments is not None, the first call on a store with no entry for those
arguments invokes the computation exactly once and stores the result, and a
second call with identical arguments returns the same result without
invoking the computation (whatever callable runs the second time). -/
theorem C3_thm (c : PickleCache) (fs : FS)
    (f : PyValue → Except PyError PyValue) (a v : PyValue) (h : String)
    (hh : hashHex a = .ok h)
    (habs : fs.lookupFile (c.cacheFilePath h) = Option.none)
    (hf : f a = .ok v) (hv : v.isNone = false) :
    ∃ c1 fs1,
      cacheWrapperCall c fs f a = .success v c1 fs1 true ∧
      ∀ g : PyValue → Except PyError PyValue,
        cacheWrapperCall c1 fs1 g a = .success v c1 fs1 false := by
  refine ⟨{ c with cachedObjectPaths :=
              insertPath c.cachedObjectPaths (c.cacheFilePath h) },
          ⟨true, updateAssoc fs.files (c.cacheFilePath h) v⟩,
          wrapperCall_miss_ok c fs f a v h hh habs hf, ?_⟩
  intro g
  exact wrapperCall_hit _ _ g a v h hh rfl
    (lookup_updateAssoc_self fs.files _ _) hv (mem_insertPath _ _)

/-- C3, witness: a callable returning the digit one, called twice on a
fresh store; the first call invokes it, the second does not. -/
theorem C3_witness :
    ∃ c1 fs1,
      cacheWrapperCall ⟨"bd", []⟩ ⟨true, []⟩ (fun _ => .ok (.int 1)) .none =
        .success (.int 1) c1 fs1 true ∧
      ∀ g : PyValue → Except PyError PyValue,
        cacheWrapperCall c1 fs1 g .none = .success (.int 1) c1 fs1 false :=
  C3_thm ⟨"bd", []⟩ ⟨true, []⟩ (fun _ => .ok (.int 1)) .none (.int 1)
    "0037a6259cc0c1dae299a7866489dff0" (by decide) rfl rfl rfl

/-- C4: the code contradicts the claim (and its own docstring, which says
clear removes only empty directories): on a fresh instance whose base
directory holds one file written by a different instance, clear() reaches
os.rmdir on the non-empty base directory, because os.walk reports no
subdirectories there, and raises OSError instead of returning 0. -/
theorem C4_bug :
    PickleCache.clear ⟨"bd", []⟩ ⟨true, [("bd/aa.pickle", .int 5)]⟩ =
      .error (.osError "Directory not empty") := rfl

/-! ## Clear accounting -/

theorem unlinkAll_exact :
    ∀ (ps : List String) (vs : List PyValue) (b : Bool),
      vs.length = ps.length →
      unlinkAll ⟨b, ps.zip vs⟩ ps = .ok ⟨b, []⟩ := by
  intro ps
  induction ps with
  | nil =>
    intro vs b _
    simp [unlinkAll, List.zip]
  | cons p rest ih =>
    intro vs b hlen
    cases vs with
    | nil => simp at hlen
    | cons v vrest =>
      have h1 : (FS.mk b ((p :: rest).zip (v :: vrest))).lookupFile p = some v := by
        simp [FS.lookupFile, List.zip_cons_cons, List.lookup]
      have h2 : removeFile ((p, v) :: rest.zip vrest) p = rest.zip vrest := by
        simp [removeFile]
      rw [unlinkAll, h1]
      simp only [List.zip_cons_cons, h2]
      exact ih vrest b (by simpa using hlen)

/-- clear on an instance whose known paths are exactly the files of the base
directory: every file is unlinked, the emptied directory is removed, and the
count of known paths is returned. -/
theorem clear_of_exact (bd : String) (ps : List String) (vs : List PyValue)
    (hlen : vs.length = ps.length) :
    PickleCache.clear ⟨bd, ps⟩ ⟨true, ps.zip vs⟩ =
      .ok (ps.length, ⟨bd, []⟩, ⟨false, []⟩) := by
  have h1 : unlinkAll ⟨true, ps.zip vs⟩ ps = .ok ⟨true, []⟩ :=
    unlinkAll_exact ps vs true hlen
  simp only [PickleCache.clear]
  rw [h1]
  simp [Except.bind, List.isEmpty]

/-- The count clear returns is always the size of the known-path set of the
instance, whatever the filesystem holds. -/
theorem clear_count (c : PickleCache) (fs : FS) (r : Nat × PickleCache × FS)
    (h : c.clear fs = .ok r) :
    r.1 = c.cachedObjectPaths.length := by
  rw [PickleCache.clear] at h
  cases hu : unlinkAll fs c.cachedObjectPaths with
  | error e => rw [hu] at h; cases h
  | ok fs2 =>
    rw [hu] at h
    simp only [Except.bind] at h
    by_cases hbd : fs2.basedirExists = true
    · by_cases hfe : fs2.files.isEmpty = true
      · simp [hbd, hfe] at h
        cases h; rfl
      · simp [hbd, hfe] at h
    · simp [hbd] at h
      cases h; rfl

theorem forall2_exists_of_mem {α β : Type} {R : α → β → Prop}
    {l1 : List α} {l2 : List β} (h : List.Forall₂ R l1 l2) :
    ∀ a ∈ l1, ∃ b, R a b := by
  induction h with
  | nil => intro a ha; cases ha
  | cons hr _ ih =>
    intro a ha
    rcases List.mem_cons.mp ha with rfl | ha2
    · exact ⟨_, hr⟩
    · exact ih a ha2

/-- A run of set calls from a fresh state: each call writes a new file and
records its path, so the known set and the file list grow by exactly the
per-key paths, in order. -/
theorem setAll_spec (bd : String) :
    ∀ (kvs : List (PyValue × PyValue)) (hs : List String)
      (ps0 : List String) (fl0 : List (String × PyValue)),
      List.Forall₂ (fun kv h => hashHex kv.1 = .ok h) kvs hs →
      (hs.map fun h => bd ++ "/" ++ h ++ ".pickle").Nodup →
      (∀ q ∈ hs.map fun h => bd ++ "/" ++ h ++ ".pickle", q ∉ ps0) →
      (∀ q ∈ hs.map fun h => bd ++ "/" ++ h ++ ".pickle", q ∉ fl0.map Prod.fst) →
      setAll ⟨bd, ps0⟩ ⟨true, fl0⟩ kvs =
        .ok (⟨bd, ps0 ++ (hs.map fun h => bd ++ "/" ++ h ++ ".pickle")⟩,
             ⟨true, fl0 ++ (hs.map fun h => bd ++ "/" ++ h ++ ".pickle").zip
                (kvs.map Prod.snd)⟩) := by
  intro kvs hs ps0 fl0 hf
  induction hf generalizing ps0 fl0 with
  | nil =>
    intro _ _ _
    simp [setAll]
  | @cons kv h kvrest hrest hhash _ ih =>
    intro hnd hd1 hd2
    obtain ⟨k, v⟩ := kv
    simp only [List.map_cons, List.nodup_cons, List.mem_cons] at hnd hd1 hd2
    have hp0 : bd ++ "/" ++ h ++ ".pickle" ∉ ps0 := hd1 _ (Or.inl rfl)
    have hf0 : bd ++ "/" ++ h ++ ".pickle" ∉ fl0.map Prod.fst := hd2 _ (Or.inl rfl)
    rw [setAll]
    have hset := set_of_ok ⟨bd, ps0⟩ ⟨true, fl0⟩ k v h hhash rfl
    have hpath : (PickleCache.mk bd ps0).cacheFilePath h =
        bd ++ "/" ++ h ++ ".pickle" := rfl
    rw [hpath] at hset
    rw [hset]
    simp only [Except.bind]
    rw [insertPath_of_not_mem hp0, updateAssoc_of_not_mem hf0]
    have ihres := ih (ps0 ++ [bd ++ "/" ++ h ++ ".pickle"])
      (fl0 ++ [(bd ++ "/" ++ h ++ ".pickle", v)])
      hnd.2
      (by
        intro q hq
        simp only [List.mem_append, List.mem_singleton]
        push_neg
        refine ⟨hd1 q (Or.inr hq), ?_⟩
        intro hqe
        exact (hnd.1 (hqe ▸ hq)).elim)
      (by
        intro q hq
        have hq1 : q ∉ fl0.map Prod.fst := hd2 q (Or.inr hq)
        have hq2 : q ≠ bd ++ "/" ++ h ++ ".pickle" := fun hqe => (hnd.1 (hqe ▸ hq))
        simp [List.map_append, hq1, hq2])
    rw [ihres]
    simp [List.zip_cons_cons, List.append_assoc]

/-- C5, counterexample to the claim as stated: the claim says the base
directory must still exist after clear when it pre-existed the first init of
the store; but on a pre-existing (empty) base directory, one set followed by
clear leaves the directory removed, because clear removes the base directory
whenever it ends up empty, with no record of whether it pre-existed. -/
theorem C5_counterexample :
    ((PickleCache.set ⟨"bd", []⟩ (PickleCache.init ⟨"bd", []⟩ ⟨true, []⟩)
        (.int 7) (.int 1)).bind
      (fun r => PickleCache.clear r.2.1 r.2.2)).map (fun r => r.2.2.basedirExists) =
      .ok false := rfl

/-- C5, amended: on a fresh store over a base directory holding no other
files, after n set calls whose keys have pairwise distinct digest paths,
clear() returns n, a subsequent get on any of those keys reports absent, and
the base directory is removed whenever it is left empty, whether or not it
pre-existed the first init. -/
theorem C5_thm (bd : String) (kvs : List (PyValue × PyValue)) (hs : List String)
    (hf : List.Forall₂ (fun kv h => hashHex kv.1 = .ok h) kvs hs)
    (hnd : (hs.map fun h => bd ++ "/" ++ h ++ ".pickle").Nodup) :
    ∃ c1 fs1,
      setAll ⟨bd, []⟩ ⟨true, []⟩ kvs = .ok (c1, fs1) ∧
      c1.clear fs1 = .ok (kvs.length, ⟨bd, []⟩, ⟨false, []⟩) ∧
      ∀ kv ∈ kvs, getValue ⟨bd, []⟩ ⟨false, []⟩ kv.1 = .ok PyValue.none := by
  have hrun := setAll_spec bd kvs hs [] [] hf hnd (by simp) (by simp)
  simp only [List.nil_append] at hrun
  refine ⟨_, _, hrun, ?_, ?_⟩
  · have hlen2 : (kvs.map Prod.snd).length =
        (hs.map fun h => bd ++ "/" ++ h ++ ".pickle").length := by
      simp [hf.length_eq]
    have hc := clear_of_exact bd (hs.map fun h => bd ++ "/" ++ h ++ ".pickle")
      (kvs.map Prod.snd) hlen2
    rw [hc]
    simp [hf.length_eq]
  · intro kv hkv
    obtain ⟨h, hh⟩ := forall2_exists_of_mem hf kv hkv
    rw [getValue, get_of_miss ⟨bd, []⟩ ⟨false, []⟩ kv.1 h hh rfl]
    rfl

/-- C5, witness: two sets with distinct keys on a fresh store, then clear
returning 2, with both keys absent afterwards. -/
theorem C5_witness :
    List.Forall₂ (fun (kv : PyValue × PyValue) h => hashHex kv.1 = .ok h)
      [(.int 1, .str "x"), (.int 2, .str "y")]
      ["00c4ca4238a0b923820dcc509a6f7584", "00c81e728d9d4c2f636f067f89cc1486"] ∧
    ∃ c1 fs1,
      setAll ⟨"bd", []⟩ ⟨true, []⟩ [(.int 1, .str "x"), (.int 2, .str "y")] =
        .ok (c1, fs1) ∧
      c1.clear fs1 = .ok (2, ⟨"bd", []⟩, ⟨false, []⟩) ∧
      ∀ kv ∈ ([(.int 1, .str "x"), (.int 2, .str "y")] : List (PyValue × PyValue)),
        getValue ⟨"bd", []⟩ ⟨false, []⟩ kv.1 = .ok PyValue.none :=
  ⟨.cons (by decide) (.cons (by decide) .nil),
   C5_thm "bd" [(.int 1, .str "x"), (.int 2, .str "y")]
     ["00c4ca4238a0b923820dcc509a6f7584", "00c81e728d9d4c2f636f067f89cc1486"]
     (.cons (by decide) (.cons (by decide) .nil)) (by decide)⟩

/-- C9: the count clear returns is the size of the known-path set, which
records distinct file paths successfully read or written, not set calls: it
always equals the length of the recorded path list; two set calls with the
same key followed by clear return 1, not 2; and a get that hits a file
written by another instance records that path, so the following clear
returns 1 and deletes the file this instance only ever read. -/
theorem C9_thm (bd : String) (k : PyValue) (h : String) (v1 v2 v : PyValue)
    (hh : hashHex k = .ok h) :
    (∀ (c : PickleCache) (fs : FS) (r : Nat × PickleCache × FS),
       c.clear fs = .ok r → r.1 = c.cachedObjectPaths.length) ∧
    (∀ c1 fs1, runOps ⟨bd, []⟩ ⟨true, []⟩ [.set k v1, .set k v2] = .ok (c1, fs1) →
       c1.clear fs1 = .ok (1, ⟨bd, []⟩, ⟨false, []⟩)) ∧
    (∀ r, PickleCache.get ⟨bd, []⟩ ⟨true, [(bd ++ "/" ++ h ++ ".pickle", v)]⟩ k =
        .ok r →
       r.1 = v ∧ r.2.1.clear r.2.2 = .ok (1, ⟨bd, []⟩, ⟨false, []⟩)) := by
  have hpath : (PickleCache.mk bd []).cacheFilePath h =
      bd ++ "/" ++ h ++ ".pickle" := rfl
  refine ⟨clear_count, ?_, ?_⟩
  · intro c1 fs1 hrun
    have hset1 := set_of_ok ⟨bd, []⟩ ⟨true, []⟩ k v1 h hh rfl
    rw [runOps, execOp, hset1] at hrun
    simp only [Except.map, Except.bind] at hrun
    have hin1 : insertPath ([] : List String) ((PickleCache.mk bd []).cacheFilePath h) =
        [(PickleCache.mk bd []).cacheFilePath h] := rfl
    rw [hin1] at hrun
    have hset2 := set_of_ok ⟨bd, [(PickleCache.mk bd []).cacheFilePath h]⟩
      (⟨true, updateAssoc [] ((PickleCache.mk bd []).cacheFilePath h) v1⟩ : FS)
      k v2 h hh rfl
    rw [runOps, execOp] at hrun
    have hpath2 : (PickleCache.mk bd
        [(PickleCache.mk bd []).cacheFilePath h]).cacheFilePath h =
        (PickleCache.mk bd []).cacheFilePath h := rfl
    rw [hpath2] at hset2
    rw [hset2] at hrun
    simp only [Except.map, Except.bind, runOps] at hrun
    rw [insertPath_of_mem (by simp)] at hrun
    have hupd : updateAssoc (updateAssoc [] ((PickleCache.mk bd []).cacheFilePath h) v1)
        ((PickleCache.mk bd []).cacheFilePath h) v2 =
        [((PickleCache.mk bd []).cacheFilePath h, v2)] := by
      simp [updateAssoc]
    rw [hupd] at hrun
    cases hrun
    have := clear_of_exact bd [(PickleCache.mk bd []).cacheFilePath h] [v2] rfl
    simpa using this
  · intro r hr
    have hhit := get_of_hit ⟨bd, []⟩ ⟨true, [(bd ++ "/" ++ h ++ ".pickle", v)]⟩ k h v hh
      (by rw [hpath]; simp [FS.lookupFile, List.lookup])
    rw [hhit] at hr
    cases hr
    refine ⟨rfl, ?_⟩
    rw [hpath]
    have hin1 : insertPath ([] : List String) (bd ++ "/" ++ h ++ ".pickle") =
        [bd ++ "/" ++ h ++ ".pickle"] := rfl
    rw [hin1]
    have := clear_of_exact bd [bd ++ "/" ++ h ++ ".pickle"] [v] rfl
    simpa using this

/-- C9, witness: the accounting statements at a concrete key and store. -/
theorem C9_witness :
    hashHex PyValue.none = .ok "0037a6259cc0c1dae299a7866489dff0" ∧
    (∀ c1 fs1,
       runOps ⟨"bd", []⟩ ⟨true, []⟩ [.set .none (.int 1), .set .none (.int 2)] =
         .ok (c1, fs1) →
       c1.clear fs1 = .ok (1, ⟨"bd", []⟩, ⟨false, []⟩)) :=
  ⟨by decide,
   (C9_thm "bd" PyValue.none "0037a6259cc0c1dae299a7866489dff0"
     (.int 1) (.int 2) (.int 3) (by decide)).2.1⟩

/-! ## Order-insensitivity of the digest over mapping keys -/

theorem charListLt_asymm :
    ∀ l1 l2, charListLt l1 l2 = true → charListLt l2 l1 = false := by
  intro l1
  induction l1 with
  | nil =>
    intro l2 h
    cases l2 with
    | nil => simpa [charListLt] using h
    | cons d ds => simp [charListLt]
  | cons c cs ih =>
    intro l2 h
    cases l2 with
    | nil => simpa [charListLt] using h
    | cons d ds =>
      by_cases h1 : c.toNat < d.toNat
      · have h2 : ¬ d.toNat < c.toNat := by omega
        simp [charListLt, h1, h2]
      · by_cases h2 : d.toNat < c.toNat
        · simp [charListLt, h1, h2] at h
        · have h3 := ih ds (by simpa [charListLt, h1, h2] using h)
          simp [charListLt, h1, h2, h3]

theorem char_eq_of_toNat_eq {c d : Char} (h : c.toNat = d.toNat) : c = d :=
  Char.ext (UInt32.ext h)

theorem charListLt_conn :
    ∀ l1 l2, charListLt l1 l2 = false → charListLt l2 l1 = false → l1 = l2 := by
  intro l1
  induction l1 with
  | nil =>
    intro l2 h12 _
    cases l2 with
    | nil => rfl
    | cons d ds => simp [charListLt] at h12
  | cons c cs ih =>
    intro l2 h12 h21
    cases l2 with
    | nil => simp [charListLt] at h21
    | cons d ds =>
      by_cases h1 : c.toNat < d.toNat
      · simp [charListLt, h1] at h12
      · by_cases h2 : d.toNat < c.toNat
        · exfalso
          have hlt : charListLt (d :: ds) (c :: cs) = true := by
            simp [charListLt, h2]
          simp [hlt] at h21
        · have hce : c = d := char_eq_of_toNat_eq (by omega)
          subst hce
          have h12' : charListLt cs ds = false := by
            simpa [charListLt, h1, h2] using h12
          have h21' : charListLt ds cs = false := by
            simpa [charListLt, h1, h2] using h21
          rw [ih ds h12' h21']

theorem charListLt_trans :
    ∀ l1 l2 l3, charListLt l1 l2 = true → charListLt l2 l3 = true →
      charListLt l1 l3 = true := by
  intro l1
  induction l1 with
  | nil =>
    intro l2 l3 h12 h23
    cases l2 with
    | nil => simp [charListLt] at h12
    | cons d ds =>
      cases l3 with
      | nil => simp [charListLt] at h23
      | cons e es => simp [charListLt]
  | cons c cs ih =>
    intro l2 l3 h12 h23
    cases l2 with
    | nil => simp [charListLt] at h12
    | cons d ds =>
      cases l3 with
      | nil => simp [charListLt] at h23
      | cons e es =>
        by_cases hcd : c.toNat < d.toNat
        · by_cases hde : d.toNat < e.toNat
          · have hce : c.toNat < e.toNat := by omega
            simp [charListLt, hce]
          · by_cases hed : e.toNat < d.toNat
            · simp [charListLt, hde, hed] at h23
            · have hce : c.toNat < e.toNat := by omega
              simp [charListLt, hce]
        · by_cases hdc : d.toNat < c.toNat
          · simp [charListLt, hcd, hdc] at h12
          · by_cases hde : d.toNat < e.toNat
            · have hce : c.toNat < e.toNat := by omega
              simp [charListLt, hce]
            · by_cases hed : e.toNat < d.toNat
              · simp [charListLt, hde, hed] at h23
              · have h12' : charListLt cs ds = true := by
                  simpa [charListLt, hcd, hdc] using h12
                have h23' : charListLt ds es = true := by
                  simpa [charListLt, hde, hed] using h23
                have hce : ¬ c.toNat < e.toNat := by omega
                have hec : ¬ e.toNat < c.toNat := by omega
                simp [charListLt, hce, hec, ih ds es h12' h23']

theorem charListLt_nlt_trans (a b z : List Char)
    (h1 : charListLt b a = false) (h2 : charListLt z b = false) :
    charListLt z a = false := by
  by_contra hc
  simp only [Bool.not_eq_false] at hc
  by_cases h3 : charListLt b z = true
  · have := charListLt_trans b z a h3 hc
    simp [this] at h1
  · have hzb : z = b := charListLt_conn z b h2 (by simpa using h3)
    subst hzb
    simp [hc] at h1

theorem string_eq_of_data_eq {s t : String} (h : s.data = t.data) : s = t := by
  cases s
  cases t
  exact congrArg String.mk h

theorem pairLe_total (a b : String × String) (h : pairLe a b = false) :
    pairLe b a = true := by
  simp only [pairLe, Bool.not_eq_false'] at h
  simp only [pairLe, charListLt_asymm _ _ h, Bool.not_false]

theorem pairLe_antisymm_key (a b : String × String)
    (hab : pairLe a b = true) (hba : pairLe b a = true) : a.1 = b.1 := by
  simp only [pairLe, Bool.not_eq_true'] at hab hba
  exact string_eq_of_data_eq (charListLt_conn _ _ hba hab)

theorem orderedInsertPair_perm (a : String × String) (l : List (String × String)) :
    (orderedInsertPair a l).Perm (a :: l) := by
  induction l with
  | nil => simp [orderedInsertPair]
  | cons b t ih =>
    by_cases h : pairLe a b = true
    · simp [orderedInsertPair, h]
    · simp only [orderedInsertPair, h, if_false]
      exact (ih.cons b).trans (List.Perm.swap a b t)

theorem sortPairs_perm (l : List (String × String)) : (sortPairs l).Perm l := by
  induction l with
  | nil => simp [sortPairs]
  | cons a t ih =>
    exact (orderedInsertPair_perm a (sortPairs t)).trans (ih.cons a)

theorem orderedInsertPair_sorted (a : String × String) (l : List (String × String))
    (h : l.Pairwise fun x y => pairLe x y = true) :
    (orderedInsertPair a l).Pairwise fun x y => pairLe x y = true := by
  induction l with
  | nil => simp [orderedInsertPair]
  | cons b t ih =>
    rcases List.pairwise_cons.mp h with ⟨hb, ht⟩
    by_cases hab : pairLe a b = true
    · simp only [orderedInsertPair, if_pos hab]
      refine List.pairwise_cons.mpr ⟨?_, h⟩
      intro z hz
      rcases List.mem_cons.mp hz with rfl | hz2
      · exact hab
      · have hbz := hb z hz2
        simp only [pairLe, Bool.not_eq_true'] at hab hbz ⊢
        exact charListLt_nlt_trans _ _ _ hab hbz
    · simp only [orderedInsertPair, if_neg hab]
      refine List.pairwise_cons.mpr ⟨?_, ih ht⟩
      intro z hz
      have hz2 := (orderedInsertPair_perm a t).mem_iff.mp hz
      rcases List.mem_cons.mp hz2 with hza | hz3
      · have hab' : pairLe a b = false := by
          cases hpa : pairLe a b
          · rfl
          · exact absurd hpa hab
        rw [hza]
        exact pairLe_total a b hab'
      · exact hb z hz3

theorem sortPairs_sorted (l : List (String × String)) :
    (sortPairs l).Pairwise fun x y => pairLe x y = true := by
  induction l with
  | nil => simp [sortPairs]
  | cons a t ih => exact orderedInsertPair_sorted a (sortPairs t) ih

/-- Two key-sorted entry lists that are permutations of each other and have
duplicate-free keys are equal. -/
theorem sorted_nodup_perm_eq :
    ∀ (q1 q2 : List (String × String)), q1.Perm q2 →
      q1.Pairwise (fun x y => pairLe x y = true) →
      q2.Pairwise (fun x y => pairLe x y = true) →
      (q1.map Prod.fst).Nodup →
      q1 = q2 := by
  intro q1
  induction q1 with
  | nil =>
    intro q2 hp _ _ _
    exact (hp.symm.eq_nil).symm
  | cons a t1 ih =>
    intro q2 hp hs1 hs2 hnd
    cases q2 with
    | nil => cases hp.eq_nil
    | cons b t2 =>
      have hab : a = b := by
        have hain : a ∈ b :: t2 := hp.mem_iff.mp (List.mem_cons_self a t1)
        rcases List.mem_cons.mp hain with h1 | h1
        · exact h1
        have hbin : b ∈ a :: t1 := hp.mem_iff.mpr (List.mem_cons_self b t2)
        rcases List.mem_cons.mp hbin with h2 | h2
        · exact h2.symm
        have h3 := (List.pairwise_cons.mp hs1).1 b h2
        have h4 := (List.pairwise_cons.mp hs2).1 a h1
        have hkey := pairLe_antisymm_key a b h3 h4
        exfalso
        have hb1 : b.1 ∈ t1.map Prod.fst := List.mem_map_of_mem Prod.fst h2
        rw [← hkey] at hb1
        have hnd' : (a.1 :: t1.map Prod.fst).Nodup := by
          simpa only [List.map_cons] using hnd
        exact (List.nodup_cons.mp hnd').1 hb1
      subst hab
      have hpt := hp.cons_inv
      have hnd' : (a.1 :: t1.map Prod.fst).Nodup := by
        simpa only [List.map_cons] using hnd
      have hrec := ih t2 hpt (List.pairwise_cons.mp hs1).2 (List.pairwise_cons.mp hs2).2
        (List.nodup_cons.mp hnd').2
      rw [hrec]

/-! ### Permutation lemmas for the effectful map -/

theorem exceptMapList_cons_ok {α β : Type} (f : α → Except PyError β) (x : α) (t : List α)
    {r : List β} (h : exceptMapList f (x :: t) = .ok r) :
    ∃ y rt, f x = .ok y ∧ exceptMapList f t = .ok rt ∧ r = y :: rt := by
  rw [exceptMapList] at h
  cases hfx : f x with
  | error e => rw [hfx] at h; simp [Except.bind] at h
  | ok y =>
    rw [hfx] at h
    simp only [Except.bind] at h
    cases hrt : exceptMapList f t with
    | error e => rw [hrt] at h; simp [Except.map] at h
    | ok rt =>
      rw [hrt] at h
      simp only [Except.map] at h
      injection h with h2
      exact ⟨y, rt, rfl, rfl, h2.symm⟩

theorem exceptMapList_perm_ok {α β : Type} (f : α → Except PyError β)
    {l1 l2 : List α} (hp : l1.Perm l2) :
    ∀ r1, exceptMapList f l1 = .ok r1 →
      ∃ r2, exceptMapList f l2 = .ok r2 ∧ r1.Perm r2 := by
  induction hp with
  | nil =>
    intro r1 h1
    exact ⟨r1, h1, List.Perm.refl r1⟩
  | cons x hperm ih =>
    intro r1 h1
    obtain ⟨y, rt, hfx, ht, rfl⟩ := exceptMapList_cons_ok f _ _ h1
    obtain ⟨rt2, ht2, hpr⟩ := ih rt ht
    refine ⟨y :: rt2, ?_, hpr.cons y⟩
    rw [exceptMapList, hfx]
    simp [Except.bind, Except.map, ht2]
  | swap x y l =>
    intro r1 h1
    obtain ⟨fy, rt1, hfy, ht1, rfl⟩ := exceptMapList_cons_ok f _ _ h1
    obtain ⟨fx, rt2, hfx, ht2, rfl⟩ := exceptMapList_cons_ok f _ _ ht1
    refine ⟨fx :: fy :: rt2, ?_, List.Perm.swap fx fy rt2⟩
    rw [exceptMapList, hfx]
    simp only [Except.bind]
    rw [exceptMapList, hfy]
    simp [Except.bind, Except.map, ht2]
  | trans h12 h23 ih12 ih23 =>
    intro r1 h1
    obtain ⟨rm, hm, hp1⟩ := ih12 r1 h1
    obtain ⟨r2, h2, hp2⟩ := ih23 rm hm
    exact ⟨r2, h2, hp1.trans hp2⟩

theorem exceptMapList_forall2 {α β : Type} (f : α → Except PyError β) :
    ∀ (l : List α) (r : List β), exceptMapList f l = .ok r →
      List.Forall₂ (fun x y => f x = .ok y) l r := by
  intro l
  induction l with
  | nil =>
    intro r h
    rw [exceptMapList] at h
    injection h with h2
    rw [← h2]
    exact .nil
  | cons x t ih =>
    intro r h
    obtain ⟨y, rt, hfx, ht, rfl⟩ := exceptMapList_cons_ok f _ _ h
    exact .cons hfx (ih rt ht)

theorem forall2_exists_of_mem_right {α β : Type} {R : α → β → Prop}
    {l : List α} {r : List β} (h : List.Forall₂ R l r) :
    ∀ y ∈ r, ∃ x, x ∈ l ∧ R x y := by
  induction h with
  | nil => intro y hy; cases hy
  | cons hr h2 ih =>
    intro y hy
    rcases List.mem_cons.mp hy with rfl | hy2
    · exact ⟨_, List.mem_cons_self _ _, hr⟩
    · obtain ⟨x, hx, hr2⟩ := ih y hy2
      exact ⟨x, List.mem_cons_of_mem _ hx, hr2⟩

/-- The dict entry loop of the encoder is the effectful map of the per-entry
body over the kept entries. -/
theorem encodeEntries_eq (a : List PyValue) :
    ∀ l, encodeEntries a l =
      exceptMapList encPair (l.filter fun p => dictKeyKept a p.1) := by
  intro l
  induction l with
  | nil => rfl
  | cons p t ih =>
    obtain ⟨k, v⟩ := p
    by_cases hk : dictKeyKept a k = true
    · rw [List.filter_cons]
      simp only [hk, if_true]
      rw [encodeEntries, if_pos hk, exceptMapList]
      cases hjk : jsonable_encoder k with
      | error e =>
        simp only [encPair, hjk]
        rfl
      | ok jk =>
        cases hjv : jsonable_encoder v with
        | error e =>
          simp only [encPair, hjk, hjv]
          rfl
        | ok jv =>
          simp only [encPair, hjk, hjv, ih]
          cases exceptMapList encPair (List.filter (fun p => dictKeyKept a p.1) t) <;>
            rfl
    · rw [List.filter_cons]
      simp only [hk, if_false]
      rw [encodeEntries, if_neg hk]
      exact ih

/-- dumpPairs is the effectful map of the per-entry body. -/
theorem dumpPairs_eq : ∀ l, dumpPairs l = exceptMapList dumpPair l := by
  intro l
  induction l with
  | nil => rfl
  | cons p t ih =>
    obtain ⟨k, v⟩ := p
    cases k with
    | str s =>
      rw [dumpPairs, exceptMapList]
      cases hdv : dumpJson v with
      | error e =>
        simp only [dumpPair, hdv]
        rfl
      | ok dv =>
        simp only [dumpPair, hdv, ih]
        cases exceptMapList dumpPair t <;> rfl
    | null => rfl
    | bool b => rfl
    | int n => rfl
    | arr xs => rfl
    | obj es => rfl

theorem containsStr_perm {l1 l2 : List PyValue} (hp : l1.Perm l2) (s : String) :
    containsStr l1 s = containsStr l2 s := by
  have hiff : containsStr l1 s = true ↔ containsStr l2 s = true := by
    simp only [containsStr, List.any_eq_true]
    constructor
    · rintro ⟨x, hx, hfx⟩
      exact ⟨x, hp.mem_iff.mp hx, hfx⟩
    · rintro ⟨x, hx, hfx⟩
      exact ⟨x, hp.mem_iff.mpr hx, hfx⟩
  cases h1 : containsStr l1 s <;> cases h2 : containsStr l2 s <;> simp_all

theorem dictKeyKept_congr {a1 a2 : List PyValue}
    (ha : ∀ s, containsStr a1 s = containsStr a2 s) (k : PyValue) :
    dictKeyKept a1 k = dictKeyKept a2 k := by
  cases k <;> simp [dictKeyKept, ha]

theorem encPair_key {p : PyValue × PyValue} {jp : JValue × JValue} {s : String}
    (hk : p.1 = .str s) (h : encPair p = .ok jp) : jp.1 = .str s := by
  rw [encPair, hk] at h
  cases hjv : jsonable_encoder p.2 with
  | error e =>
    rw [show jsonable_encoder (.str s) = .ok (.str s) from rfl, hjv] at h
    simp [Except.bind, Except.map] at h
  | ok jv =>
    rw [show jsonable_encoder (.str s) = .ok (.str s) from rfl, hjv] at h
    simp only [Except.bind, Except.map] at h
    injection h with h2
    rw [← h2]

theorem dumpPair_key {jp : JValue × JValue} {qe : String × String} {s : String}
    (hk : jp.1 = .str s) (h : dumpPair jp = .ok qe) : qe.1 = s := by
  rw [dumpPair] at h
  rw [hk] at h
  cases hdv : dumpJson jp.2 with
  | error e => rw [hdv] at h; simp [Except.map] at h
  | ok dv =>
    rw [hdv] at h
    simp only [Except.map] at h
    injection h with h2
    rw [← h2]

theorem keys_of_encodeRun :
    ∀ (fl : List (PyValue × PyValue)) (r : List (JValue × JValue)),
      List.Forall₂ (fun p jp => encPair p = .ok jp) fl r →
      (∀ p ∈ fl, ∃ s, p.1 = PyValue.str s) →
      r.map Prod.fst = fl.map fun p => jKey p.1 := by
  intro fl r h
  induction h with
  | nil => intro _; rfl
  | @cons p jp flt rt hr _ ih =>
    intro hstr
    obtain ⟨s, hs⟩ := hstr _ (List.mem_cons_self _ _)
    have hk := encPair_key hs hr
    simp only [List.map_cons, hk, hs, jKey]
    rw [ih (fun q hq => hstr q (List.mem_cons_of_mem _ hq))]
    rfl

theorem keys_of_dumpRun :
    ∀ (r : List (JValue × JValue)) (q : List (String × String)),
      List.Forall₂ (fun jp qe => dumpPair jp = .ok qe) r q →
      (∀ jp ∈ r, ∃ s, jp.1 = JValue.str s) →
      q.map Prod.fst = r.map fun jp => sKey jp.1 := by
  intro r q h
  induction h with
  | nil => intro _; rfl
  | @cons jp qe rt qt hr _ ih =>
    intro hstr
    obtain ⟨s, hs⟩ := hstr _ (List.mem_cons_self _ _)
    have hk := dumpPair_key hs hr
    simp only [List.map_cons, hk, hs, sKey]
    rw [ih (fun z hz => hstr z (List.mem_cons_of_mem _ hz))]
    rfl

/-- Dumping an encoded mapping is invariant under permutation of its entries
when the keys are text and duplicate-free: the entries are sorted by key
before rendering. -/
theorem dumpJson_obj_perm {r1 r2 : List (JValue × JValue)} (hp : r1.Perm r2)
    (hstr : ∀ jp ∈ r1, ∃ s, jp.1 = JValue.str s)
    (hnd : (r1.map Prod.fst).Nodup)
    {out : String} (h1 : dumpJson (.obj r1) = .ok out) :
    dumpJson (.obj r2) = .ok out := by
  rw [dumpJson] at h1 ⊢
  rw [dumpPairs_eq] at h1 ⊢
  cases hq1 : exceptMapList dumpPair r1 with
  | error e => rw [hq1] at h1; simp [Except.map] at h1
  | ok q1 =>
    rw [hq1] at h1
    simp only [Except.map] at h1
    obtain ⟨q2, hq2, hpq⟩ := exceptMapList_perm_ok dumpPair hp q1 hq1
    rw [hq2]
    simp only [Except.map]
    have hf2 := exceptMapList_forall2 dumpPair r1 q1 hq1
    have hkeys : q1.map Prod.fst = r1.map fun jp => sKey jp.1 :=
      keys_of_dumpRun r1 q1 hf2 hstr
    have hr1keys : r1.map Prod.fst = (r1.map fun jp => sKey jp.1).map JValue.str := by
      rw [List.map_map]
      apply List.map_congr_left
      intro jp hjp
      obtain ⟨s, hs⟩ := hstr jp hjp
      simp [hs, sKey, Function.comp]
    have hndq : (q1.map Prod.fst).Nodup := by
      rw [hkeys]
      exact List.Nodup.of_map JValue.str (by rw [← hr1keys]; exact hnd)
    have hndsort : ((sortPairs q1).map Prod.fst).Nodup := by
      have hpm := (sortPairs_perm q1).map Prod.fst
      exact hpm.nodup_iff.mpr hndq
    have hsort : sortPairs q1 = sortPairs q2 :=
      sorted_nodup_perm_eq (sortPairs q1) (sortPairs q2)
        ((sortPairs_perm q1).trans (hpq.trans (sortPairs_perm q2).symm))
        (sortPairs_sorted q1) (sortPairs_sorted q2) hndsort
    rw [← hsort]
    exact h1

/-- Encoding a mapping is invariant, up to permutation of the encoded
entries, under permutation of the source entries with text duplicate-free
keys; the encoded keys stay text and duplicate-free. -/
theorem encode_dict_perm {l1 l2 : List (PyValue × PyValue)} (hp : l1.Perm l2)
    (hstr : ∀ p ∈ l1, ∃ s, p.1 = PyValue.str s)
    (hnd : (l1.map Prod.fst).Nodup)
    {r1 : List (JValue × JValue)}
    (h1 : encodeEntries (l1.map Prod.fst) l1 = .ok r1) :
    ∃ r2, encodeEntries (l2.map Prod.fst) l2 = .ok r2 ∧ r1.Perm r2 ∧
      (∀ jp ∈ r1, ∃ s, jp.1 = JValue.str s) ∧ (r1.map Prod.fst).Nodup := by
  have ha : ∀ s, containsStr (l2.map Prod.fst) s = containsStr (l1.map Prod.fst) s :=
    fun s => (containsStr_perm (hp.map Prod.fst) s).symm
  rw [encodeEntries_eq] at h1
  have hfeq : (l2.filter fun p => dictKeyKept (l2.map Prod.fst) p.1)
      = l2.filter fun p => dictKeyKept (l1.map Prod.fst) p.1 :=
    List.filter_congr fun p _ => dictKeyKept_congr ha p.1
  have hfp : (l1.filter fun p => dictKeyKept (l1.map Prod.fst) p.1).Perm
      (l2.filter fun p => dictKeyKept (l1.map Prod.fst) p.1) := hp.filter _
  obtain ⟨r2, h2, hpr⟩ := exceptMapList_perm_ok encPair hfp r1 h1
  have hf2 := exceptMapList_forall2 encPair _ r1 h1
  refine ⟨r2, ?_, hpr, ?_, ?_⟩
  · rw [encodeEntries_eq, hfeq]
    exact h2
  · intro jp hjp
    obtain ⟨p, hpmem, hpe⟩ := forall2_exists_of_mem_right hf2 jp hjp
    obtain ⟨s, hs⟩ := hstr p (List.mem_of_mem_filter hpmem)
    exact ⟨s, encPair_key hs hpe⟩
  · have hkeys := keys_of_encodeRun _ r1 hf2
      fun p hpf => hstr p (List.mem_of_mem_filter hpf)
    rw [hkeys]
    have hfl : ((l1.filter fun p => dictKeyKept (l1.map Prod.fst) p.1).map
        Prod.fst).Nodup :=
      List.Nodup.sublist (List.Sublist.map _ (List.filter_sublist l1)) hnd
    have hmm : (l1.filter fun p => dictKeyKept (l1.map Prod.fst) p.1).map
        (fun p => jKey p.1) =
        ((l1.filter fun p => dictKeyKept (l1.map Prod.fst) p.1).map Prod.fst).map
          jKey := by
      rw [List.map_map]
      rfl
    rw [hmm]
    apply List.Nodup.map_on ?_ hfl
    intro x hx y hy hxy
    obtain ⟨px, hpx, hx1⟩ := List.mem_map.mp hx
    obtain ⟨py, hpy, hy1⟩ := List.mem_map.mp hy
    obtain ⟨sx, hsx⟩ := hstr px (List.mem_of_mem_filter hpx)
    obtain ⟨sy, hsy⟩ := hstr py (List.mem_of_mem_filter hpy)
    rw [← hx1, ← hy1, hsx, hsy] at hxy ⊢
    simp only [jKey, JValue.str.injEq] at hxy
    rw [hxy]

/-- C1: serializing a mapping is insensitive to the insertion order of its
entries (keys are sorted in the canonical json text), so two mappings with
the same text-keyed, duplicate-free entries digest identically; and the
digest of an ordered sequence is order-sensitive, witnessed by
digest([1,2,3]) differing from digest([3,2,1]). -/
theorem C1_thm (l1 l2 : List (PyValue × PyValue)) (out : String)
    (hperm : l1.Perm l2)
    (hstr : ∀ p ∈ l1, ∃ s, p.1 = PyValue.str s)
    (hnd : (l1.map Prod.fst).Nodup)
    (hdump : json_dumps (.dict l1) = .ok out) :
    get_hash (.dict l1) = get_hash (.dict l2) ∧
    get_hash (.list [.int 1, .int 2, .int 3]) ≠
      get_hash (.list [.int 3, .int 2, .int 1]) := by
  constructor
  · have hd2 : json_dumps (.dict l2) = .ok out := by
      rw [json_dumps] at hdump ⊢
      simp only [jsonable_encoder] at hdump ⊢
      cases h1 : encodeEntries (l1.map Prod.fst) l1 with
      | error e => rw [h1] at hdump; simp [Except.map, Except.bind] at hdump
      | ok r1 =>
        rw [h1] at hdump
        simp only [Except.map, Except.bind] at hdump
        obtain ⟨r2, h2, hpr, hstrj, hndj⟩ := encode_dict_perm hperm hstr hnd h1
        rw [h2]
        simp only [Except.map, Except.bind]
        exact dumpJson_obj_perm hpr hstrj hndj hdump
    rw [get_hash, get_hash, hdump, hd2]
  · decide

/-- C1, witness: the spec scenario itself, with the two-entry mapping in
both insertion orders and the two three-element lists. -/
theorem C1_witness :
    ([(PyValue.str "a", PyValue.int 1), (PyValue.str "b", PyValue.int 2)] :
        List (PyValue × PyValue)).Perm
      [(PyValue.str "b", PyValue.int 2), (PyValue.str "a", PyValue.int 1)] ∧
    json_dumps (.dict [(.str "a", .int 1), (.str "b", .int 2)]) =
      .ok "\x7b\"a\":1,\"b\":2\x7d" ∧
    get_hash (.dict [(.str "a", .int 1), (.str "b", .int 2)]) =
      get_hash (.dict [(.str "b", .int 2), (.str "a", .int 1)]) ∧
    get_hash (.list [.int 1, .int 2, .int 3]) ≠
      get_hash (.list [.int 3, .int 2, .int 1]) := by
  have hperm :
      ([(PyValue.str "a", PyValue.int 1), (PyValue.str "b", PyValue.int 2)] :
          List (PyValue × PyValue)).Perm
        [(PyValue.str "b", PyValue.int 2), (PyValue.str "a", PyValue.int 1)] :=
    List.Perm.swap (PyValue.str "b", PyValue.int 2) (PyValue.str "a", PyValue.int 1) []
  have hstr : ∀ p ∈ ([(PyValue.str "a", PyValue.int 1),
      (PyValue.str "b", PyValue.int 2)] : List (PyValue × PyValue)),
      ∃ s, p.1 = PyValue.str s := by
    intro p hp
    rcases List.mem_cons.mp hp with rfl | hp2
    · exact ⟨"a", rfl⟩
    rcases List.mem_cons.mp hp2 with rfl | hp3
    · exact ⟨"b", rfl⟩
    cases hp3
  have hnd : (([(PyValue.str "a", PyValue.int 1),
      (PyValue.str "b", PyValue.int 2)] : List (PyValue × PyValue)).map
        Prod.fst).Nodup := by
    simp
  have h := C1_thm _ _ "\x7b\"a\":1,\"b\":2\x7d" hperm hstr hnd rfl
  exact ⟨hperm, rfl, h.1, h.2⟩

end CacheRepo
